import Mathlib

/-!
Verification of the message formatter module
(`force-app/main/default/lwc/messageFormatter/messageFormatter.js`).

Strings are modelled as `List Char`.  The JavaScript regular expressions of
the source are embedded as explicit scanning functions with the greedy /
backtracking semantics of the JS engine; where a scan restarts after a match
the recursion is driven by a fuel argument that is kept equal to the length
of the remaining input, so that all definitions are structurally recursive
and computable by the kernel.
-/

namespace MF

/-! ### Character classes (JS `\s`, `\d`, line terminators, ASCII case folding) -/

/-- JS `\s` on code points: space, tab, LF, VT, FF, CR, NBSP, and the
Unicode space separators, LS, PS, NNBSP, MMSP, ideographic space, BOM. -/
def jsWsN (n : Nat) : Bool :=
  n == 32 || n == 9 || n == 10 || n == 11 || n == 12 || n == 13 ||
  n == 0xa0 || n == 0x1680 || (decide (0x2000 ≤ n) && decide (n ≤ 0x200a)) ||
  n == 0x2028 || n == 0x2029 || n == 0x202f || n == 0x205f ||
  n == 0x3000 || n == 0xfeff

/-- JS `\s` on characters. -/
def jsWs (c : Char) : Bool := jsWsN c.toNat

/-- JS `\d`, i.e. exactly the ASCII digits `0`-`9`. -/
def isDig (c : Char) : Bool := decide (48 ≤ c.toNat) && decide (c.toNat ≤ 57)

/-- JS line terminators (the characters not matched by `.`): LF, CR, LS, PS. -/
def isLineTerm (c : Char) : Bool :=
  c.toNat == 10 || c.toNat == 13 || c.toNat == 0x2028 || c.toNat == 0x2029

/-- The character class `[ \t]` of the list-item patterns. -/
def isSpTab (c : Char) : Bool := c.toNat == 32 || c.toNat == 9

/-- ASCII lower casing on code points, for the case-insensitive `/i` flag. -/
def lowerN (n : Nat) : Nat := if 65 ≤ n ∧ n ≤ 90 then n + 32 else n

/-! ### Generic list-of-char helpers -/

/-- JS `String.prototype.trim`: strip JS whitespace from both ends. -/
def jsTrim (l : List Char) : List Char :=
  ((l.dropWhile jsWs).reverse.dropWhile jsWs).reverse

/-- JS `text.split('\n')`. -/
def splitOnNl : List Char → List (List Char)
  | [] => [[]]
  | c :: t =>
    if c.toNat = 10 then [] :: splitOnNl t
    else
      match splitOnNl t with
      | h :: r => (c :: h) :: r
      | [] => [[c]]

/-- Number of occurrences of `pat` as a substring (counting every start
position once). -/
def countOcc (pat : List Char) : List Char → Nat
  | [] => 0
  | c :: t => (if pat.isPrefixOf (c :: t) then 1 else 0) + countOcc pat t

/-! ### The HTML detector `HTML_PATTERN`

`/<\/?(p|br|strong|b|em|i|ul|ol|li|h[1-6]|a|div|span|blockquote|pre|code|table)[\s\/>]/i`
-/

/-- The fixed allowlist of structural tag names of `HTML_PATTERN`. -/
def tagNames : List (List Char) :=
  ["p".data, "br".data, "strong".data, "b".data, "em".data, "i".data,
   "ul".data, "ol".data, "li".data,
   "h1".data, "h2".data, "h3".data, "h4".data, "h5".data, "h6".data,
   "a".data, "div".data, "span".data, "blockquote".data,
   "pre".data, "code".data, "table".data]

/-- Strip `pat` from the front of `s` case-insensitively (ASCII folding, as
the `/i` flag does on these ASCII-only alternatives); return the remainder. -/
def stripPreCI : List Char → List Char → Option (List Char)
  | [], s => some s
  | _, [] => none
  | p :: ps, c :: cs => if lowerN c.toNat = p.toNat then stripPreCI ps cs else none

/-- The character class `[\s\/>]` closing a recognized tag boundary. -/
def isTagDelim (c : Char) : Bool := jsWs c || c.toNat == 47 || c.toNat == 62

/-- After `<` or `</`: some allowlisted tag name followed by a delimiter. -/
def matchTagBody (s : List Char) : Bool :=
  tagNames.any fun t =>
    match stripPreCI t s with
    | some (c :: _) => isTagDelim c
    | _ => false

/-- Match of `HTML_PATTERN` anchored at the start of `s`. -/
def matchHtmlAt (s : List Char) : Bool :=
  match s with
  | c :: rest =>
    if c.toNat = 60 then
      matchTagBody rest ||
        (match rest with
         | c2 :: r2 => c2.toNat == 47 && matchTagBody r2
         | [] => false)
    else false
  | [] => false

/-- `HTML_PATTERN.test`: unanchored search over every start position. -/
def htmlPatternTest : List Char → Bool
  | [] => false
  | c :: t => matchHtmlAt (c :: t) || htmlPatternTest t

/-! ### Inline formatting (`inlineFormat`)

Three global replaces, in source order:
bold ``/\*\*([^*]+)\*\*/g``, italic ``/\*([^*]+)\*/g``, code
``/`([^`]+)`/g``.  All three have the shape: opener, a nonempty run of
characters other than the delimiter, closer. -/

/-- Strip the literal prefix `pat` from `s`. -/
def stripPre : List Char → List Char → Option (List Char)
  | [], s => some s
  | _, [] => none
  | p :: ps, c :: cs => if c = p then stripPre ps cs else none

/-- Anchored match of `op`, then a nonempty maximal run of characters `≠ bad`
(greedy `[^x]+`; shorter runs can never satisfy the closer, so maximal munch
is exact), then `op` again.  Returns the captured run and the remainder. -/
def matchSpanAt (op : List Char) (bad : Char) (s : List Char) :
    Option (List Char × List Char) :=
  match stripPre op s with
  | none => none
  | some r =>
    let inner := r.takeWhile fun c => c ≠ bad
    if inner.isEmpty then none
    else
      match stripPre op (r.drop inner.length) with
      | none => none
      | some rest => some (inner, rest)

/-- One global-replace pass: scan left to right, replacing every match of
`matchSpanAt op bad` by `pre ++ capture ++ post`.  The fuel is kept `≥` the
length of the remaining input by every caller, so the `0` fallback (which
returns the input unchanged) is never reached from `spanReplace`. -/
def spanGo (op : List Char) (bad : Char) (pre post : List Char) :
    Nat → List Char → List Char
  | 0, s => s
  | _ + 1, [] => []
  | f + 1, c :: t =>
    match matchSpanAt op bad (c :: t) with
    | some p => pre ++ p.1 ++ post ++ spanGo op bad pre post f p.2
    | none => c :: spanGo op bad pre post f t

/-- `str.replace(re, pre ++ "$1" ++ post)` for the span-shaped patterns. -/
def spanReplace (op : List Char) (bad : Char) (pre post : List Char)
    (s : List Char) : List Char :=
  spanGo op bad pre post s.length s

/-- `inlineFormat`: bold, then italic, then inline code. -/
def inlineFormat (s : List Char) : List Char :=
  let s1 := spanReplace "**".data '*' "<strong>".data "</strong>".data s
  let s2 := spanReplace "*".data '*' "<em>".data "</em>".data s1
  spanReplace "\x60".data '\x60' "<code>".data "</code>".data s2

/-! ### The pre-pass `INLINE_OL_BREAK`

`/\.\s+(\d+)[.)]\s+/g` replaced by `'.\n$1. '`.  Every quantifier is
greedy and followed by a disjoint character class, so maximal munch is
exact. -/

/-- Anchored match of `INLINE_OL_BREAK`; returns the captured digit run and
the remainder after the whole match. -/
def matchOlBreakAt (s : List Char) : Option (List Char × List Char) :=
  match s with
  | c :: r =>
    if c.toNat = 46 then
      let w := r.takeWhile jsWs
      if w.isEmpty then none
      else
        let r1 := r.drop w.length
        let d := r1.takeWhile isDig
        if d.isEmpty then none
        else
          match r1.drop d.length with
          | c2 :: r3 =>
            if c2.toNat = 46 ∨ c2.toNat = 41 then
              let w2 := r3.takeWhile jsWs
              if w2.isEmpty then none else some (d, r3.drop w2.length)
            else none
          | [] => none
    else none
  | [] => none

/-- Global replace for `INLINE_OL_BREAK` (fuel-driven scan as in `spanGo`). -/
def olBreakGo : Nat → List Char → List Char
  | 0, s => s
  | _ + 1, [] => []
  | f + 1, c :: t =>
    match matchOlBreakAt (c :: t) with
    | some p => '.' :: '\n' :: (p.1 ++ '.' :: ' ' :: olBreakGo f p.2)
    | none => c :: olBreakGo f t

/-- `text.replace(INLINE_OL_BREAK, '.\n$1. ')`. -/
def replaceOlBreak (s : List Char) : List Char := olBreakGo s.length s

/-! ### Line classification (`UL_RE`, `OL_RE`, `H_RE`)

All three end in `\s+(.+)`.  There `\s+` is greedy but backtracks: the
engine tries the maximal whitespace run first and shortens it until `.+`
can match at least one non-line-terminator character. -/

/-- Backtracking for `\s+(.+)`: try whitespace length `k`, `k-1`, …, `1`;
succeed when the remainder starts with a non-line-terminator, capturing the
maximal `.`-run there. -/
def tryWsContent (r : List Char) : Nat → Option (List Char)
  | 0 => none
  | k + 1 =>
    match r.drop (k + 1) with
    | c :: rest =>
      if isLineTerm c then tryWsContent r k
      else some ((c :: rest).takeWhile fun x => ¬ isLineTerm x)
    | [] => tryWsContent r k

/-- Match `\s+(.+)` at the start of `r`, returning the capture. -/
def wsContentCapture (r : List Char) : Option (List Char) :=
  tryWsContent r (r.takeWhile jsWs).length

/-- `UL_RE.exec(line)`: `/^[ \t]*[-*+]\s+(.+)/`, returning capture 1. -/
def execUL (line : List Char) : Option (List Char) :=
  match line.dropWhile isSpTab with
  | c :: t =>
    if c.toNat = 45 ∨ c.toNat = 42 ∨ c.toNat = 43 then wsContentCapture t
    else none
  | [] => none

/-- `OL_RE.exec(line)`: `/^[ \t]*\d+[.)]\s+(.+)/`, returning capture 1. -/
def execOL (line : List Char) : Option (List Char) :=
  let r := line.dropWhile isSpTab
  let d := r.takeWhile isDig
  if d.isEmpty then none
  else
    match r.drop d.length with
    | c :: t => if c.toNat = 46 ∨ c.toNat = 41 then wsContentCapture t else none
    | [] => none

/-- `H_RE.exec(line)`: `/^(#{1,6})\s+(.+)/`, returning the level and
capture 2.  Seven or more leading `#` can never match: any shorter prefix
is followed by `#`, which `\s+` rejects. -/
def execH (line : List Char) : Option (Nat × List Char) :=
  let hs := line.takeWhile fun c => c.toNat == 35
  if hs.length = 0 ∨ 6 < hs.length then none
  else
    match wsContentCapture (line.drop hs.length) with
    | some content => some (hs.length, content)
    | none => none

/-! ### Inline splitting of one ordered-list line

`content.split(/\s+(\d+)[.)]\s+/)`: the captured digit runs are
interleaved with the pieces, exactly as JS `split` does with a capturing
group. -/

/-- Anchored match of the split separator `\s+(\d+)[.)]\s+`. -/
def matchSplitAt (s : List Char) : Option (List Char × List Char) :=
  let w := s.takeWhile jsWs
  if w.isEmpty then none
  else
    let r1 := s.drop w.length
    let d := r1.takeWhile isDig
    if d.isEmpty then none
    else
      match r1.drop d.length with
      | c :: r2 =>
        if c.toNat = 46 ∨ c.toNat = 41 then
          let w2 := r2.takeWhile jsWs
          if w2.isEmpty then none else some (d, r2.drop w2.length)
        else none
      | [] => none

/-- Scan for a separator match `m`, accumulating the current piece
reversed.  The fuel is kept at `length + 1` so the `0` fallback is never
reached. -/
def splitCapGo (m : List Char → Option (List Char × List Char)) :
    Nat → List Char → List Char → List (List Char)
  | 0, acc, _ => [acc.reverse]
  | _ + 1, acc, [] => [acc.reverse]
  | f + 1, acc, c :: t =>
    match m (c :: t) with
    | some p => acc.reverse :: p.1 :: splitCapGo m f [] p.2
    | none => splitCapGo m f (c :: acc) t

/-- `content.split(/\s+(\d+)[.)]\s+/)`. -/
def splitCap (content : List Char) : List (List Char) :=
  splitCapGo matchSplitAt (content.length + 1) [] content

/-- `<li>…</li>` wrapper. -/
def wrapLi (t : List Char) : List Char := "<li>".data ++ t ++ "</li>".data

/-- The `for (j = 0; j < parts.length; j += 2)` loop of the ordered-list
branch: take the even-indexed pieces, trim, drop empties, wrap each. -/
def collectEvens : List (List Char) → List (List Char)
  | [] => []
  | x :: rest =>
    let itemText := jsTrim x
    let tailItems :=
      match rest with
      | [] => []
      | _ :: r => collectEvens r
    if itemText.isEmpty then tailItems
    else wrapLi (inlineFormat itemText) :: tailItems

/-- The `<li>` strings pushed for one ordered-list line with content
`content` (source lines 84-94). -/
def olItems (content : List Char) : List (List Char) :=
  let inlineParts := splitCap content
  if 1 < inlineParts.length then collectEvens inlineParts
  else [wrapLi (inlineFormat content)]

/-! ### The line-processing state machine -/

/-- List kind held by the accumulator (`listType`). -/
inductive LKind
  | ul
  | ol
deriving DecidableEq

/-- The converter state: emitted blocks, current list kind, pending items. -/
structure MDState where
  out : List (List Char)
  listType : Option LKind
  items : List (List Char)
deriving DecidableEq

/-- The tag text interpolated by `` `<${listType}>` `` (JS renders `null`
as the string `null`; that case is unreachable from the initial state). -/
def tagOf : Option LKind → List Char
  | some .ul => "ul".data
  | some .ol => "ol".data
  | none => "null".data

/-- One flushed list block: `<tag>` ++ joined items ++ `</tag>`. -/
def listBlock (t : Option LKind) (items : List (List Char)) : List Char :=
  ('<' :: tagOf t ++ ['>']) ++ items.flatten ++ ('<' :: '/' :: tagOf t ++ ['>'])

/-- `flushList`: emit and clear the accumulator when it is nonempty. -/
def flushList (st : MDState) : MDState :=
  if st.items.isEmpty then st
  else ⟨st.out ++ [listBlock st.listType st.items], none, []⟩

/-- A paragraph block. -/
def pBlock (line : List Char) : List Char :=
  "<p>".data ++ inlineFormat line ++ "</p>".data

/-- A heading block `<h{lvl}>…</h{lvl}>` (`lvl` is 1-6 when emitted). -/
def hBlock (lvl : Nat) (content : List Char) : List Char :=
  ('<' :: 'h' :: Char.ofNat (48 + lvl) :: ['>']) ++ inlineFormat content ++
    ('<' :: '/' :: 'h' :: Char.ofNat (48 + lvl) :: ['>'])

/-- The `<br>` marker block for blank lines. -/
def brBlock : List Char := "<br>".data

/-- The body of the `for` loop of `markdownToHtml`, for one line. -/
def processLine (st : MDState) (line : List Char) : MDState :=
  match execUL line with
  | some content =>
    let st1 := if st.listType = some .ol then flushList st else st
    ⟨st1.out, some .ul, st1.items ++ [wrapLi (inlineFormat content)]⟩
  | none =>
    match execOL line with
    | some content =>
      let st1 := if st.listType = some .ul then flushList st else st
      ⟨st1.out, some .ol, st1.items ++ olItems content⟩
    | none =>
      if (jsTrim line).isEmpty then
        if st.listType ≠ none then st
        else
          let st1 := flushList st
          ⟨st1.out ++ [brBlock], st1.listType, st1.items⟩
      else
        let st1 := flushList st
        match execH line with
        | some hm => ⟨st1.out ++ [hBlock hm.1 hm.2], st1.listType, st1.items⟩
        | none => ⟨st1.out ++ [pBlock line], st1.listType, st1.items⟩

/-- `markdownToHtml`: pre-pass, split into lines, fold the loop, final
flush, join the blocks. -/
def markdownToHtml (text : List Char) : List Char :=
  (flushList ((splitOnNl (replaceOlBreak text)).foldl processLine
    ⟨[], none, []⟩)).out.flatten

/-- `renderMessageContent`: falsy input short-circuits to the empty string,
detected HTML passes through, otherwise the converter runs.  Absent input
(`null` / `undefined`) is modelled as `none`. -/
def renderMessageContent (text : Option (List Char)) : List Char :=
  match text with
  | none => []
  | some t =>
    if t.isEmpty then []
    else if htmlPatternTest t then t
    else markdownToHtml t


/-! ### Spec-level predicates and invariants used by the theorems -/

/-- `raw` spelled case-insensitively as the (lowercase) pattern word `pat`. -/
def lowersTo (raw pat : List Char) : Prop :=
  raw.map (fun c => lowerN c.toNat) = pat.map Char.toNat

instance (raw pat : List Char) : Decidable (lowersTo raw pat) := by
  unfold lowersTo; infer_instance

/-- The spec-level detector condition: the string contains, anywhere, `<` or
`</` followed (case-insensitively) by an allowlisted structural tag name and
then whitespace, `/`, or `>`. -/
def ContainsHtmlBoundary (s : List Char) : Prop :=
  ∃ pre sl raw c post, (sl = [] ∨ sl = ['/']) ∧ (∃ t ∈ tagNames, lowersTo raw t) ∧
    isTagDelim c = true ∧ s = pre ++ '<' :: (sl ++ (raw ++ c :: post))

/-- Every line break in the list is immediately preceded by a period;
`prev` is the character just before the list. -/
def bapFrom (prev : Char) : List Char → Prop
  | [] => True
  | c :: t => (c = '\n' → prev = '.') ∧ bapFrom c t

/-- Even-indexed elements of a list (spec-side description of the
`j += 2` loop of the ordered-list branch). -/
def evens {α : Type} : List α → List α
  | [] => []
  | [x] => [x]
  | x :: _ :: r => x :: evens r

/-- Loop invariant: every emitted block starts with a recognized tag
boundary, and a nonempty accumulator always has a list kind. -/
def GoodSt (st : MDState) : Prop :=
  (∀ b ∈ st.out, matchHtmlAt b = true) ∧ (st.items ≠ [] → st.listType ≠ none)

/-- Output-progress measure: some block or some pending item exists. -/
def NEmp (st : MDState) : Prop := st.out ≠ [] ∨ st.items ≠ []

/-- The C3 claim as frozen: every non-list line hitting a non-empty
accumulator flushes it (the flushed block appears in the output) before the
line is processed. -/
def ClaimC3 : Prop :=
  ∀ (st : MDState) (line : List Char), st.items ≠ [] →
    execUL line = none → execOL line = none →
    ∃ rest, (processLine st line).out =
      st.out ++ listBlock st.listType st.items :: rest

end MF

namespace MF

/-! ### Basic facts about the character classes -/

theorem charEq_of_toNat {a b : Char} (h : a.toNat = b.toNat) : a = b :=
  Char.ext (UInt32.ext h)

theorem isDig_ne_nl {x : Char} (h : isDig x = true) : x ≠ '\n' := by
  intro hx; subst hx; simp [isDig] at h

theorem lineTerm_ws {c : Char} (h : isLineTerm c = true) : jsWs c = true := by
  simp only [isLineTerm, Bool.or_eq_true, beq_iff_eq] at h
  simp only [jsWs, jsWsN, Bool.or_eq_true, beq_iff_eq, Bool.and_eq_true,
    decide_eq_true_eq]
  omega

theorem jsWsN_iff {n : Nat} : jsWsN n = true ↔
    (n = 32 ∨ n = 9 ∨ n = 10 ∨ n = 11 ∨ n = 12 ∨ n = 13 ∨ n = 0xa0 ∨
     n = 0x1680 ∨ (0x2000 ≤ n ∧ n ≤ 0x200a) ∨ n = 0x2028 ∨ n = 0x2029 ∨
     n = 0x202f ∨ n = 0x205f ∨ n = 0x3000 ∨ n = 0xfeff) := by
  simp only [jsWsN, Bool.or_eq_true, beq_iff_eq, Bool.and_eq_true,
    decide_eq_true_eq]
  tauto

theorem jsWs_not_marker {c : Char} (h : jsWs c = true) :
    ¬ (c.toNat = 45 ∨ c.toNat = 42 ∨ c.toNat = 43) := by
  have hn := jsWsN_iff.mp h
  omega

theorem jsWs_not_dig {c : Char} (h : jsWs c = true) : isDig c = false := by
  have hn := jsWsN_iff.mp h
  simp only [isDig, Bool.and_eq_false_iff, decide_eq_false_iff_not]
  omega

/-- `drop` past the `takeWhile` prefix is `dropWhile`. -/
theorem drop_length_takeWhile (p : Char → Bool) (l : List Char) :
    l.drop (l.takeWhile p).length = l.dropWhile p := by
  induction l with
  | nil => rfl
  | cons c t ih =>
    rw [List.takeWhile_cons, List.dropWhile_cons]
    by_cases hp : p c
    · simp [hp, ih]
    · simp [hp]

theorem dropWhile_head_not {p : Char → Bool} {l rest : List Char} {c : Char}
    (h : l.dropWhile p = c :: rest) : p c = false := by
  induction l with
  | nil => exact List.noConfusion h
  | cons a t ih =>
    rw [List.dropWhile_cons] at h
    by_cases hp : p a
    · rw [if_pos hp] at h; exact ih h
    · rw [if_neg hp] at h
      injection h with h1 _
      rw [← h1]
      exact Bool.not_eq_true _ |>.mp hp

theorem dropWhile_subset_mem {p : Char → Bool} {l t : List Char} {c : Char}
    (h : l.dropWhile p = c :: t) : c ∈ l := by
  have hm : c ∈ l.dropWhile p := by rw [h]; exact List.mem_cons_self c t
  exact (List.dropWhile_sublist p).mem hm

theorem isEmpty_false_of_ne {l : List Char} (h : l ≠ []) : l.isEmpty = false := by
  cases l with
  | nil => exact absurd rfl h
  | cons a t => rfl

theorem jsTrim_nil_all_ws {l : List Char} (h : jsTrim l = []) :
    ∀ c ∈ l, jsWs c = true := by
  unfold jsTrim at h
  rw [List.reverse_eq_nil_iff, List.dropWhile_eq_nil_iff] at h
  intro c hc
  rcases List.mem_append.mp
      (by rw [List.takeWhile_append_dropWhile (p := jsWs) (l := l)]; exact hc) with
    hm | hm
  · exact List.mem_takeWhile_imp hm
  · exact h c (List.mem_reverse.mpr hm)

theorem jsTrim_ne_nil_of_head {h : Char} {u : List Char} (hws : jsWs h = false) :
    jsTrim (h :: u) ≠ [] := by
  intro he
  have hcw := jsTrim_nil_all_ws he h (List.mem_cons_self h u)
  rw [hcw] at hws
  exact Bool.noConfusion hws

/-! ### The HTML detector: boundary condition and append monotonicity -/

theorem stripPreCI_of_lowersTo {raw pat : List Char} (h : lowersTo raw pat)
    (r : List Char) : stripPreCI pat (raw ++ r) = some r := by
  induction raw generalizing pat r with
  | nil =>
    unfold lowersTo at h
    have hp : pat = [] := by
      cases pat with
      | nil => rfl
      | cons p ps => simp at h
    subst hp; simp [stripPreCI]
  | cons c cs ih =>
    unfold lowersTo at h
    cases pat with
    | nil => simp at h
    | cons p ps =>
      simp only [List.map_cons, List.cons.injEq] at h
      simp only [List.cons_append, stripPreCI]
      rw [if_pos h.1]
      exact ih h.2 r

theorem matchTagBody_of_boundary {t raw : List Char} (ht : t ∈ tagNames)
    (hl : lowersTo raw t) {c : Char} (hc : isTagDelim c = true)
    (post : List Char) : matchTagBody (raw ++ c :: post) = true := by
  unfold matchTagBody
  rw [List.any_eq_true]
  refine ⟨t, ht, ?_⟩
  rw [stripPreCI_of_lowersTo hl]
  exact hc

theorem matchHtmlAt_of_boundary {sl raw : List Char} (hsl : sl = [] ∨ sl = ['/'])
    {t : List Char} (ht : t ∈ tagNames) (hl : lowersTo raw t) {c : Char}
    (hc : isTagDelim c = true) (post : List Char) :
    matchHtmlAt ('<' :: (sl ++ (raw ++ c :: post))) = true := by
  have hbody := matchTagBody_of_boundary ht hl hc post
  have h60 : '<'.toNat = 60 := by decide
  have h47 : ('/'.toNat == 47) = true := by decide
  rcases hsl with h | h <;> subst h
  · simp only [List.nil_append, matchHtmlAt, h60, if_true, hbody, Bool.true_or,
      eq_self_iff_true]
  · simp only [List.cons_append, List.nil_append, matchHtmlAt, h60,
      eq_self_iff_true, if_true, h47, hbody, Bool.and_true, Bool.or_true]

theorem htmlPatternTest_append_of_matchAt {m : List Char}
    (hm : matchHtmlAt m = true) (pre : List Char) :
    htmlPatternTest (pre ++ m) = true := by
  induction pre with
  | nil =>
    cases m with
    | nil => simp [matchHtmlAt] at hm
    | cons c t => simp only [List.nil_append, htmlPatternTest, hm, Bool.true_or]
  | cons c t ih =>
    simp only [List.cons_append, htmlPatternTest, List.append_eq, ih, Bool.or_true]

theorem htmlPatternTest_of_boundary {s : List Char} (h : ContainsHtmlBoundary s) :
    htmlPatternTest s = true := by
  obtain ⟨pre, sl, raw, c, post, hsl, ⟨t, ht, hl⟩, hc, hs⟩ := h
  subst hs
  exact htmlPatternTest_append_of_matchAt
    (matchHtmlAt_of_boundary hsl ht hl hc post) pre

theorem stripPreCI_append {pat s r u : List Char}
    (h : stripPreCI pat s = some u) : stripPreCI pat (s ++ r) = some (u ++ r) := by
  induction pat generalizing s with
  | nil =>
    simp only [stripPreCI, Option.some.injEq] at h
    simp [stripPreCI, h]
  | cons p ps ih =>
    cases s with
    | nil => exact Option.noConfusion h
    | cons c t =>
      rw [List.cons_append]
      unfold stripPreCI at h ⊢
      by_cases hc : lowerN c.toNat = p.toNat
      · rw [if_pos hc] at h ⊢
        exact ih h
      · rw [if_neg hc] at h
        exact Option.noConfusion h

theorem matchTagBody_append {s r : List Char} (h : matchTagBody s = true) :
    matchTagBody (s ++ r) = true := by
  unfold matchTagBody at h ⊢
  rw [List.any_eq_true] at h ⊢
  obtain ⟨t, ht, hc⟩ := h
  refine ⟨t, ht, ?_⟩
  cases hsp : stripPreCI t s with
  | none => rw [hsp] at hc; exact Bool.noConfusion hc
  | some u =>
    rw [hsp] at hc
    cases u with
    | nil => exact Bool.noConfusion hc
    | cons c rest =>
      rw [stripPreCI_append hsp]
      exact hc

theorem matchHtmlAt_append {b r : List Char} (h : matchHtmlAt b = true) :
    matchHtmlAt (b ++ r) = true := by
  cases b with
  | nil => exact Bool.noConfusion h
  | cons c t =>
    rw [List.cons_append]
    unfold matchHtmlAt at h ⊢
    dsimp only at h ⊢
    by_cases h60 : c.toNat = 60
    · rw [if_pos h60] at h ⊢
      rw [Bool.or_eq_true] at h ⊢
      rcases h with h | h
      · exact Or.inl (matchTagBody_append h)
      · right
        cases t with
        | nil => exact Bool.noConfusion h
        | cons c2 t2 =>
          rw [Bool.and_eq_true] at h
          rw [List.cons_append]
          dsimp only
          rw [Bool.and_eq_true]
          exact ⟨h.1, matchTagBody_append h.2⟩
    · rw [if_neg h60] at h
      exact Bool.noConfusion h

theorem matchHtmlAt_ne_nil {b : List Char} (h : matchHtmlAt b = true) :
    b ≠ [] := by
  cases b with
  | nil => exact Bool.noConfusion h
  | cons c t => simp

end MF

namespace MF

/-! ### Blocks emitted by the converter all carry a detectable boundary -/

theorem good_pBlock (line : List Char) : matchHtmlAt (pBlock line) = true := by
  rw [show pBlock line = "<p>".data ++ (inlineFormat line ++ "</p>".data) by
    simp [pBlock]]
  exact matchHtmlAt_append (by decide)

theorem good_brBlock : matchHtmlAt brBlock = true := by decide

theorem good_listBlock (k : LKind) (items : List (List Char)) :
    matchHtmlAt (listBlock (some k) items) = true := by
  rw [show listBlock (some k) items = ('<' :: tagOf (some k) ++ ['>']) ++
      (items.flatten ++ ('<' :: '/' :: tagOf (some k) ++ ['>'])) by
    simp [listBlock]]
  cases k
  · exact matchHtmlAt_append (by decide)
  · exact matchHtmlAt_append (by decide)

theorem good_hBlock {lvl : Nat} (h1 : 1 ≤ lvl) (h6 : lvl ≤ 6)
    (content : List Char) : matchHtmlAt (hBlock lvl content) = true := by
  rw [show hBlock lvl content = ('<' :: 'h' :: Char.ofNat (48 + lvl) :: ['>']) ++
      (inlineFormat content ++ ('<' :: '/' :: 'h' :: Char.ofNat (48 + lvl) :: ['>'])) by
    simp [hBlock]]
  interval_cases lvl <;> exact matchHtmlAt_append (by decide)

theorem execH_bounds {line : List Char} {hm : Nat × List Char}
    (h : execH line = some hm) : 1 ≤ hm.1 ∧ hm.1 ≤ 6 := by
  simp only [execH] at h
  split at h
  · exact Option.noConfusion h
  · rename_i hlen
    split at h
    · injection h with h1
      rw [← h1]
      omega
    · exact Option.noConfusion h

/-! ### Blank lines and the line classifiers -/

theorem blank_execUL {line : List Char} (h : jsTrim line = []) :
    execUL line = none := by
  have hws := jsTrim_nil_all_ws h
  unfold execUL
  cases hdw : line.dropWhile isSpTab with
  | nil => rfl
  | cons c t =>
    dsimp only
    rw [if_neg (jsWs_not_marker (hws c (dropWhile_subset_mem hdw)))]

theorem blank_execOL {line : List Char} (h : jsTrim line = []) :
    execOL line = none := by
  have hws := jsTrim_nil_all_ws h
  unfold execOL
  cases hdw : line.dropWhile isSpTab with
  | nil => simp
  | cons c t =>
    dsimp only
    rw [List.takeWhile_cons, jsWs_not_dig (hws c (dropWhile_subset_mem hdw))]
    simp

theorem execUL_none_of_execOL {line content : List Char}
    (h : execOL line = some content) : execUL line = none := by
  unfold execOL at h
  unfold execUL
  cases hdw : line.dropWhile isSpTab with
  | nil => rfl
  | cons c t =>
    rw [hdw] at h
    dsimp only at h
    rw [List.takeWhile_cons] at h
    by_cases hd : isDig c = true
    · refine if_neg fun hm => ?_
      have hrange : 48 ≤ c.toNat ∧ c.toNat ≤ 57 := by
        simpa [isDig] using hd
      omega
    · rw [Bool.not_eq_true] at hd
      rw [hd] at h
      simp at h

/-! ### The accumulator state machine -/

theorem flushList_of_items_ne {st : MDState} (h : st.items ≠ []) :
    flushList st = ⟨st.out ++ [listBlock st.listType st.items], none, []⟩ := by
  unfold flushList
  rw [if_neg]
  simp [List.isEmpty_iff, h]

theorem flushList_of_items_nil {st : MDState} (h : st.items = []) :
    flushList st = st := by
  unfold flushList
  rw [if_pos]
  simp [List.isEmpty_iff, h]

theorem processLine_blank_open {st : MDState} {line : List Char}
    (hb : jsTrim line = []) (hty : st.listType ≠ none) :
    processLine st line = st := by
  unfold processLine
  rw [blank_execUL hb, blank_execOL hb]
  dsimp only
  rw [if_pos (by simp [hb]), if_pos hty]

theorem processLine_blank_closed {st : MDState} {line : List Char}
    (hb : jsTrim line = []) (hty : st.listType = none) (hit : st.items = []) :
    processLine st line = ⟨st.out ++ [brBlock], st.listType, st.items⟩ := by
  unfold processLine
  rw [blank_execUL hb, blank_execOL hb]
  dsimp only
  rw [if_pos (by simp [hb]), if_neg (by simp [hty]), flushList_of_items_nil hit]

theorem processLine_flush_nonblank {st : MDState} {line : List Char}
    (hit : st.items ≠ []) (hUL : execUL line = none) (hOL : execOL line = none)
    (hb : jsTrim line ≠ []) :
    ∃ b, processLine st line =
      ⟨st.out ++ [listBlock st.listType st.items, b], none, []⟩ := by
  unfold processLine
  rw [hUL, hOL]
  dsimp only
  rw [if_neg (by simp [hb]), flushList_of_items_ne hit]
  cases hH : execH line with
  | some hm => exact ⟨hBlock hm.1 hm.2, by simp⟩
  | none => exact ⟨pBlock line, by simp⟩

theorem processLine_switch_to_ol {st : MDState} {line content : List Char}
    (hOL : execOL line = some content) (hty : st.listType = some LKind.ul)
    (hit : st.items ≠ []) :
    processLine st line =
      ⟨st.out ++ [listBlock (some LKind.ul) st.items], some LKind.ol,
        olItems content⟩ := by
  unfold processLine
  rw [execUL_none_of_execOL hOL, hOL]
  dsimp only
  rw [if_pos hty, flushList_of_items_ne hit, hty]
  simp

theorem processLine_switch_to_ul {st : MDState} {line content : List Char}
    (hUL : execUL line = some content) (hty : st.listType = some LKind.ol)
    (hit : st.items ≠ []) :
    processLine st line =
      ⟨st.out ++ [listBlock (some LKind.ol) st.items], some LKind.ul,
        [wrapLi (inlineFormat content)]⟩ := by
  unfold processLine
  rw [hUL]
  dsimp only
  rw [if_pos hty, flushList_of_items_ne hit, hty]
  simp

end MF

namespace MF

/-! ### The pre-pass: breaks are only inserted after a period -/

theorem matchOlBreakAt_none {c : Char} (t : List Char) (h : ¬ c.toNat = 46) :
    matchOlBreakAt (c :: t) = none := by
  simp [matchOlBreakAt, h]

theorem matchOlBreakAt_spec {c : Char} {t : List Char}
    {p : List Char × List Char} (h : matchOlBreakAt (c :: t) = some p) :
    p.1 ≠ [] ∧ (∀ x ∈ p.1, isDig x = true) ∧ p.2 <:+ t := by
  simp only [matchOlBreakAt] at h
  by_cases h46 : c.toNat = 46
  · rw [if_pos h46] at h
    by_cases hw : ((t.takeWhile jsWs).isEmpty : Prop)
    · rw [if_pos hw] at h; exact Option.noConfusion h
    · rw [if_neg hw] at h
      by_cases hd :
          (((t.drop (t.takeWhile jsWs).length).takeWhile isDig).isEmpty : Prop)
      · rw [if_pos hd] at h; exact Option.noConfusion h
      · rw [if_neg hd] at h
        cases hdd : (t.drop (t.takeWhile jsWs).length).drop
            ((t.drop (t.takeWhile jsWs).length).takeWhile isDig).length with
        | nil => rw [hdd] at h; exact Option.noConfusion h
        | cons c2 r3 =>
          rw [hdd] at h
          dsimp only at h
          by_cases hc2 : (c2.toNat = 46 ∨ c2.toNat = 41)
          · rw [if_pos hc2] at h
            by_cases hw2 : ((r3.takeWhile jsWs).isEmpty : Prop)
            · rw [if_pos hw2] at h; exact Option.noConfusion h
            · rw [if_neg hw2] at h
              injection h with h1
              have hsub : (c2 :: r3) <:+ t := by
                rw [← hdd]
                exact (List.drop_suffix _ _).trans (List.drop_suffix _ t)
              have h3 : r3 <:+ t := (List.suffix_cons c2 r3).trans hsub
              rw [← h1]
              refine ⟨?_, fun x hx => List.mem_takeWhile_imp hx,
                (List.drop_suffix _ _).trans h3⟩
              rw [List.isEmpty_iff] at hd
              exact hd
          · rw [if_neg hc2] at h; exact Option.noConfusion h
  · rw [if_neg h46] at h; exact Option.noConfusion h

theorem bapFrom_of_no_nl {l : List Char} (h : ∀ c ∈ l, c ≠ '\n') (p : Char) :
    bapFrom p l := by
  induction l generalizing p with
  | nil => trivial
  | cons c t ih =>
    exact ⟨fun hc => absurd hc (h c (List.mem_cons_self c t)),
      ih (fun x hx => h x (List.mem_cons_of_mem c hx)) c⟩

theorem bapFrom_append {xs ys : List Char} (hxs : ∀ c ∈ xs, c ≠ '\n')
    (hys : ∀ q, bapFrom q ys) (p : Char) : bapFrom p (xs ++ ys) := by
  induction xs generalizing p with
  | nil => exact hys p
  | cons c t ih =>
    exact ⟨fun hc => absurd hc (hxs c (List.mem_cons_self c t)),
      ih (fun x hx => hxs x (List.mem_cons_of_mem c hx)) c⟩

theorem olBreakGo_bap (f : Nat) (s : List Char) (h : ∀ c ∈ s, c ≠ '\n')
    (p : Char) : bapFrom p (olBreakGo f s) := by
  induction f generalizing s p with
  | zero => exact bapFrom_of_no_nl h p
  | succ f ih =>
    cases s with
    | nil => trivial
    | cons c t =>
      cases hm : matchOlBreakAt (c :: t) with
      | none =>
        rw [show olBreakGo (f + 1) (c :: t) = c :: olBreakGo f t by
          simp only [olBreakGo, hm]]
        refine ⟨fun hc => absurd hc (h c (List.mem_cons_self c t)), ?_⟩
        exact ih t (fun x hx => h x (List.mem_cons_of_mem c hx)) c
      | some pr =>
        obtain ⟨hne, hdig, hsuf⟩ := matchOlBreakAt_spec hm
        rw [show olBreakGo (f + 1) (c :: t) =
            '.' :: '\n' :: (pr.1 ++ '.' :: ' ' :: olBreakGo f pr.2) by
          simp only [olBreakGo, hm]]
        refine ⟨fun hc => absurd hc (by decide), fun _ => rfl, ?_⟩
        refine bapFrom_append (fun x hx => isDig_ne_nl (hdig x hx)) (fun q => ?_) '\n'
        refine ⟨fun hc => absurd hc (by decide), fun hc => absurd hc (by decide), ?_⟩
        refine ih pr.2 (fun x hx => ?_) ' '
        exact h x (List.mem_cons_of_mem c (hsuf.sublist.mem hx))

theorem olBreakGo_no_period {pfx : List Char} (hp : ∀ c ∈ pfx, ¬ c.toNat = 46)
    (r : List Char) :
    olBreakGo (pfx ++ r).length (pfx ++ r) = pfx ++ olBreakGo r.length r := by
  induction pfx with
  | nil => simp
  | cons c t ih =>
    have hc : ¬ c.toNat = 46 := hp c (List.mem_cons_self c t)
    show olBreakGo ((t ++ r).length + 1) (c :: (t ++ r)) =
      c :: (t ++ olBreakGo r.length r)
    rw [show olBreakGo ((t ++ r).length + 1) (c :: (t ++ r)) =
        c :: olBreakGo (t ++ r).length (t ++ r) from ?_]
    · rw [ih fun x hx => hp x (List.mem_cons_of_mem c hx)]
    · simp only [olBreakGo, matchOlBreakAt_none _ hc]

end MF

namespace MF

/-! ### Inline formatting: matches need two delimiters -/

theorem stripPre_some {pat s r : List Char} (h : stripPre pat s = some r) :
    s = pat ++ r := by
  induction pat generalizing s with
  | nil =>
    simp only [stripPre, Option.some.injEq] at h
    rw [List.nil_append, h]
  | cons p ps ih =>
    cases s with
    | nil => exact Option.noConfusion h
    | cons c t =>
      unfold stripPre at h
      by_cases hc : c = p
      · rw [if_pos hc] at h
        rw [hc, List.cons_append, ih h]
      · rw [if_neg hc] at h
        exact Option.noConfusion h

theorem matchSpan_bold_count {s : List Char} {p : List Char × List Char}
    (h : matchSpanAt "**".data '*' s = some p) : 2 ≤ s.count '*' := by
  unfold matchSpanAt at h
  cases hsp : stripPre "**".data s with
  | none => rw [hsp] at h; exact Option.noConfusion h
  | some r =>
    have hs := stripPre_some hsp
    subst hs
    simp [List.count_append, List.count_cons]

theorem matchSpan_ital_count {s : List Char} {p : List Char × List Char}
    (h : matchSpanAt "*".data '*' s = some p) : 2 ≤ s.count '*' := by
  unfold matchSpanAt at h
  cases hsp : stripPre "*".data s with
  | none => rw [hsp] at h; exact Option.noConfusion h
  | some r =>
    have hs := stripPre_some hsp
    subst hs
    rw [hsp] at h
    dsimp only at h
    split at h
    · exact Option.noConfusion h
    · cases hsp2 : stripPre "*".data
          (r.drop (r.takeWhile fun c => c ≠ '*').length) with
      | none => rw [hsp2] at h; exact Option.noConfusion h
      | some rest =>
        have h2 := stripPre_some hsp2
        have hm : '*' ∈ r := by
          have hin : '*' ∈ r.drop (r.takeWhile fun c => c ≠ '*').length := by
            rw [h2]; exact List.mem_cons_self _ _
          exact (List.drop_sublist _ _).mem hin
        have hc : 1 ≤ r.count '*' := List.count_pos_iff.mpr hm
        simp only [List.count_append, List.count_cons] at hc ⊢
        simp
        omega

theorem matchSpan_code_none {s : List Char} (h : ∀ c ∈ s, c ≠ '\x60') :
    matchSpanAt "\x60".data '\x60' s = none := by
  unfold matchSpanAt
  cases s with
  | nil => rfl
  | cons c t =>
    have hne : ¬ (c = '\x60') := h c (List.mem_cons_self c t)
    simp [stripPre, hne]

theorem spanGo_bold_id (pre post : List Char) (f : Nat) :
    ∀ s : List Char, s.count '*' ≤ 1 → spanGo "**".data '*' pre post f s = s := by
  induction f with
  | zero => intro s _; rfl
  | succ f ih =>
    intro s hs
    cases s with
    | nil => rfl
    | cons c t =>
      cases hm : matchSpanAt "**".data '*' (c :: t) with
      | some p => exact absurd (matchSpan_bold_count hm) (by omega)
      | none =>
        rw [show spanGo "**".data '*' pre post (f + 1) (c :: t) =
            c :: spanGo "**".data '*' pre post f t by simp only [spanGo, hm]]
        rw [ih t (le_trans (by simp [List.count_cons]) hs)]

theorem spanGo_ital_id (pre post : List Char) (f : Nat) :
    ∀ s : List Char, s.count '*' ≤ 1 → spanGo "*".data '*' pre post f s = s := by
  induction f with
  | zero => intro s _; rfl
  | succ f ih =>
    intro s hs
    cases s with
    | nil => rfl
    | cons c t =>
      cases hm : matchSpanAt "*".data '*' (c :: t) with
      | some p => exact absurd (matchSpan_ital_count hm) (by omega)
      | none =>
        rw [show spanGo "*".data '*' pre post (f + 1) (c :: t) =
            c :: spanGo "*".data '*' pre post f t by simp only [spanGo, hm]]
        rw [ih t (le_trans (by simp [List.count_cons]) hs)]

theorem spanGo_code_id (pre post : List Char) (f : Nat) :
    ∀ s : List Char, (∀ c ∈ s, c ≠ '\x60') →
      spanGo "\x60".data '\x60' pre post f s = s := by
  induction f with
  | zero => intro s _; rfl
  | succ f ih =>
    intro s hs
    cases s with
    | nil => rfl
    | cons c t =>
      rw [show spanGo "\x60".data '\x60' pre post (f + 1) (c :: t) =
          c :: spanGo "\x60".data '\x60' pre post f t by
        simp only [spanGo, matchSpan_code_none hs]]
      rw [ih t fun x hx => hs x (List.mem_cons_of_mem c hx)]

theorem inlineFormat_single_ast {s : List Char} (h1 : s.count '*' = 1)
    (h2 : ∀ c ∈ s, c ≠ '\x60') : inlineFormat s = s := by
  unfold inlineFormat spanReplace
  dsimp only
  rw [spanGo_bold_id _ _ _ s (by omega)]
  rw [spanGo_ital_id _ _ _ s (by omega)]
  rw [spanGo_code_id _ _ _ s h2]

/-! ### The inline ordered-list split loop -/

theorem collectEvens_eq (l : List (List Char)) :
    collectEvens l =
      (((evens l).map jsTrim).filter fun t => !t.isEmpty).map
        fun t => wrapLi (inlineFormat t) := by
  induction l using evens.induct with
  | case1 => rfl
  | case2 x =>
    simp only [collectEvens, evens, List.map, List.filter]
    cases he : (jsTrim x).isEmpty <;> simp [he]
  | case3 x y r ih =>
    simp only [collectEvens, evens, List.map, List.filter]
    cases he : (jsTrim x).isEmpty <;> simp [he, ih]

end MF

namespace MF

/-! ### What `\s+(.+)` captures, and nonemptiness of the pushed items -/

theorem tryWsContent_ne_nil {r content : List Char} {k : Nat}
    (h : tryWsContent r k = some content) : content ≠ [] := by
  induction k with
  | zero => exact Option.noConfusion h
  | succ k ih =>
    unfold tryWsContent at h
    cases hd : r.drop (k + 1) with
    | nil => rw [hd] at h; exact ih h
    | cons c rest =>
      rw [hd] at h
      dsimp only at h
      by_cases ht : isLineTerm c = true
      · rw [if_pos ht] at h; exact ih h
      · rw [if_neg ht] at h
        injection h with h1
        rw [← h1, List.takeWhile_cons]
        simp [ht]

theorem tryWsContent_all_ws {r content : List Char} {k : Nat}
    (hws : ∀ c ∈ r, jsWs c = true) (h : tryWsContent r k = some content) :
    ∀ c ∈ content, jsWs c = true := by
  induction k with
  | zero => exact Option.noConfusion h
  | succ k ih =>
    unfold tryWsContent at h
    cases hd : r.drop (k + 1) with
    | nil => rw [hd] at h; exact ih h
    | cons c rest =>
      rw [hd] at h
      dsimp only at h
      by_cases ht : isLineTerm c = true
      · rw [if_pos ht] at h; exact ih h
      · rw [if_neg ht] at h
        injection h with h1
        intro x hx
        rw [← h1] at hx
        have hx2 : x ∈ c :: rest := (List.takeWhile_sublist _).mem hx
        have hx3 : x ∈ r := by
          rw [← hd] at hx2
          exact (List.drop_sublist _ _).mem hx2
        exact hws x hx3

theorem wsContentCapture_spec {r content : List Char}
    (h : wsContentCapture r = some content) :
    content ≠ [] ∧
      ((∃ hd u, content = hd :: u ∧ jsWs hd = false) ∨
        (∀ c ∈ content, jsWs c = true)) := by
  unfold wsContentCapture at h
  refine ⟨tryWsContent_ne_nil h, ?_⟩
  cases hdw : r.dropWhile jsWs with
  | nil =>
    right
    refine tryWsContent_all_ws ?_ h
    exact List.dropWhile_eq_nil_iff.mp hdw
  | cons c rest =>
    have hc : jsWs c = false := dropWhile_head_not hdw
    rcases hmax : (r.takeWhile jsWs).length with _ | k0
    · rw [hmax] at h
      exact Option.noConfusion h
    · rw [hmax] at h
      unfold tryWsContent at h
      have hd : r.drop (k0 + 1) = c :: rest := by
        rw [← hmax, drop_length_takeWhile, hdw]
      rw [hd] at h
      dsimp only at h
      rw [if_neg (fun ht => by rw [lineTerm_ws ht] at hc; exact Bool.noConfusion hc)]
        at h
      injection h with h1
      left
      refine ⟨c, (rest.takeWhile fun x => ¬ isLineTerm x), ?_, hc⟩
      rw [← h1, List.takeWhile_cons]
      rw [if_pos]
      simp only [decide_eq_true_eq]
      intro hterm
      have hw2 := lineTerm_ws (by simpa [isLineTerm] using hterm)
      rw [hw2] at hc
      exact Bool.noConfusion hc

theorem matchSplitAt_none_of_no_dig {s : List Char}
    (h : ∀ c ∈ s, isDig c = false) : matchSplitAt s = none := by
  unfold matchSplitAt
  by_cases hw : ((s.takeWhile jsWs).isEmpty : Prop)
  · rw [if_pos hw]
  · rw [if_neg hw]
    dsimp only
    cases hd : s.drop (s.takeWhile jsWs).length with
    | nil => simp [hd]
    | cons c rest =>
      have hc : isDig c = false := by
        refine h c ?_
        have hm : c ∈ s.drop (s.takeWhile jsWs).length := by
          rw [hd]; exact List.mem_cons_self c rest
        exact (List.drop_sublist _ _).mem hm
      rw [List.takeWhile_cons, hc]
      simp

theorem splitCapGo_step_none {f : Nat} {acc t : List Char} {c : Char}
    (hm : matchSplitAt (c :: t) = none) :
    splitCapGo matchSplitAt (f + 1) acc (c :: t) =
      splitCapGo matchSplitAt f (c :: acc) t := by
  simp only [splitCapGo, hm]

theorem splitCapGo_no_dig {s : List Char} (h : ∀ c ∈ s, isDig c = false) :
    ∀ (f : Nat) (acc : List Char), s.length ≤ f →
      splitCapGo matchSplitAt f acc s = [acc.reverse ++ s] := by
  induction s with
  | nil =>
    intro f acc _
    cases f <;> simp [splitCapGo]
  | cons c t ih =>
    intro f acc hf
    cases f with
    | zero => simp at hf
    | succ f =>
      rw [splitCapGo_step_none (matchSplitAt_none_of_no_dig h)]
      rw [ih (fun x hx => h x (List.mem_cons_of_mem c hx)) f (c :: acc)
        (by simpa using hf)]
      simp

theorem splitCapGo_head (f : Nat) :
    ∀ (acc s : List Char), ∃ u rest,
      splitCapGo matchSplitAt f acc s = (acc.reverse ++ u) :: rest := by
  induction f with
  | zero => exact fun acc s => ⟨[], [], by simp [splitCapGo]⟩
  | succ f ih =>
    intro acc s
    cases s with
    | nil => exact ⟨[], [], by simp [splitCapGo]⟩
    | cons c t =>
      cases hm : matchSplitAt (c :: t) with
      | some p =>
        refine ⟨[], p.1 :: splitCapGo matchSplitAt f [] p.2, ?_⟩
        simp only [splitCapGo, hm]
        simp
      | none =>
        obtain ⟨u, rest, hu⟩ := ih (c :: acc) t
        refine ⟨c :: u, rest, ?_⟩
        rw [splitCapGo_step_none hm, hu]
        simp

theorem olItems_ne_nil {content : List Char} (hne : content ≠ [])
    (hcase : (∃ hd u, content = hd :: u ∧ jsWs hd = false) ∨
      (∀ c ∈ content, jsWs c = true)) : olItems content ≠ [] := by
  unfold olItems
  dsimp only
  rcases hcase with ⟨hd, u, hcu, hws⟩ | hall
  · subst hcu
    split
    · have hm : matchSplitAt (hd :: u) = none := by
        unfold matchSplitAt
        rw [List.takeWhile_cons, hws]
        simp
      unfold splitCap
      rw [show (hd :: u).length + 1 = u.length + 1 + 1 by simp]
      rw [splitCapGo_step_none hm]
      obtain ⟨v, rest, hv⟩ := splitCapGo_head (u.length + 1) [hd] u
      rw [hv]
      unfold collectEvens
      rw [show ((([hd] : List Char).reverse) ++ v) = hd :: v by simp]
      dsimp only
      rw [isEmpty_false_of_ne (jsTrim_ne_nil_of_head hws)]
      simp
    · simp
  · split
    · rename_i hlen
      unfold splitCap at hlen
      rw [splitCapGo_no_dig (fun c hc => jsWs_not_dig (hall c hc)) _ []
        (by omega)] at hlen
      simp at hlen
    · simp

theorem execOL_content_spec {line content : List Char}
    (h : execOL line = some content) :
    content ≠ [] ∧
      ((∃ hd u, content = hd :: u ∧ jsWs hd = false) ∨
        (∀ c ∈ content, jsWs c = true)) := by
  unfold execOL at h
  dsimp only at h
  split at h
  · exact Option.noConfusion h
  · split at h
    · split at h
      · exact wsContentCapture_spec h
      · exact Option.noConfusion h
    · exact Option.noConfusion h

end MF

namespace MF

/-! ### The loop invariants: good blocks and output progress -/

theorem flushList_good {st : MDState} (h : GoodSt st) : GoodSt (flushList st) := by
  unfold flushList
  by_cases hit : (st.items.isEmpty : Prop)
  · rw [if_pos hit]; exact h
  · rw [if_neg hit]
    rw [List.isEmpty_iff] at hit
    refine ⟨fun b hb => ?_, fun hi => (hi rfl).elim⟩
    rcases List.mem_append.mp hb with hm | hm
    · exact h.1 b hm
    · rw [List.mem_singleton] at hm
      subst hm
      cases hk : st.listType with
      | none => exact absurd hk (h.2 hit)
      | some k => exact good_listBlock k st.items

theorem mem_out_of_step {st1 st : MDState} {bs : List (List Char)}
    (hst : st1.out = st.out ++ bs) (hout : ∀ b ∈ st.out, matchHtmlAt b = true)
    (hbs : ∀ b ∈ bs, matchHtmlAt b = true) :
    ∀ b ∈ st1.out, matchHtmlAt b = true := by
  intro b hb
  rw [hst] at hb
  rcases List.mem_append.mp hb with hm | hm
  · exact hout b hm
  · exact hbs b hm

theorem processLine_good {st : MDState} (line : List Char) (h : GoodSt st) :
    GoodSt (processLine st line) := by
  unfold processLine
  cases hUL : execUL line with
  | some content =>
    dsimp only
    have hst1 : GoodSt (if st.listType = some LKind.ol then flushList st else st) := by
      split
      · exact flushList_good h
      · exact h
    exact ⟨hst1.1, fun _ => by simp⟩
  | none =>
    cases hOL : execOL line with
    | some content =>
      dsimp only
      have hst1 : GoodSt (if st.listType = some LKind.ul then flushList st else st) := by
        split
        · exact flushList_good h
        · exact h
      exact ⟨hst1.1, fun _ => by simp⟩
    | none =>
      dsimp only
      by_cases hb : ((jsTrim line).isEmpty : Prop)
      · rw [if_pos hb]
        by_cases hty : st.listType ≠ none
        · rw [if_pos hty]; exact h
        · rw [if_neg hty]
          push_neg at hty
          have hit : st.items = [] := by
            by_contra hne
            exact (h.2 hne) hty
          rw [flushList_of_items_nil hit]
          refine ⟨?_, fun hi => absurd hit hi⟩
          refine mem_out_of_step rfl h.1 ?_
          intro b hbm
          rw [List.mem_singleton] at hbm
          subst hbm
          exact good_brBlock
      · rw [if_neg hb]
        have hfl := flushList_good h
        have hfl_items : (flushList st).items = [] := by
          unfold flushList
          split
          · rename_i hie
            rw [List.isEmpty_iff] at hie
            exact hie
          · rfl
        cases hH : execH line with
        | some hm =>
          dsimp only
          obtain ⟨hb1, hb6⟩ := execH_bounds hH
          refine ⟨?_, fun hi => absurd hfl_items hi⟩
          refine mem_out_of_step rfl hfl.1 ?_
          intro b hbm
          rw [List.mem_singleton] at hbm
          subst hbm
          exact good_hBlock hb1 hb6 hm.2
        | none =>
          dsimp only
          refine ⟨?_, fun hi => absurd hfl_items hi⟩
          refine mem_out_of_step rfl hfl.1 ?_
          intro b hbm
          rw [List.mem_singleton] at hbm
          subst hbm
          exact good_pBlock line

theorem foldl_good (lines : List (List Char)) :
    ∀ st : MDState, GoodSt st → GoodSt (lines.foldl processLine st) := by
  induction lines with
  | nil => exact fun st h => h
  | cons l ls ih => exact fun st h => ih _ (processLine_good l h)

theorem processLine_nemp {st : MDState} (line : List Char)
    (h : st.listType = none ∨ NEmp st) : NEmp (processLine st line) := by
  unfold processLine
  cases hUL : execUL line with
  | some content =>
    right
    simp
  | none =>
    cases hOL : execOL line with
    | some content =>
      right
      dsimp only
      obtain ⟨hne, hcase⟩ := execOL_content_spec hOL
      have holi := olItems_ne_nil hne hcase
      simp [holi]
    | none =>
      dsimp only
      by_cases hb : ((jsTrim line).isEmpty : Prop)
      · rw [if_pos hb]
        by_cases hty : st.listType ≠ none
        · rw [if_pos hty]
          rcases h with h | h
          · exact absurd h hty
          · exact h
        · rw [if_neg hty]
          left
          simp
      · rw [if_neg hb]
        cases hH : execH line with
        | some hm => left; simp
        | none => left; simp

theorem foldl_nemp (ls : List (List Char)) :
    ∀ st : MDState, NEmp st → NEmp (ls.foldl processLine st) := by
  induction ls with
  | nil => exact fun st h => h
  | cons l ls ih => exact fun st h => ih _ (processLine_nemp l (Or.inr h))

theorem splitOnNl_ne_nil (s : List Char) : splitOnNl s ≠ [] := by
  cases s with
  | nil => simp [splitOnNl]
  | cons c t =>
    unfold splitOnNl
    by_cases hc : c.toNat = 10
    · simp [hc]
    · rw [if_neg hc]
      cases hsp : splitOnNl t <;> simp

theorem flushList_out_ne {st : MDState} (h : NEmp st) :
    (flushList st).out ≠ [] := by
  unfold flushList
  by_cases hit : (st.items.isEmpty : Prop)
  · rw [if_pos hit]
    rcases h with h | h
    · exact h
    · rw [List.isEmpty_iff] at hit
      exact absurd hit h
  · rw [if_neg hit]
    simp

/-- The converter always produces nonempty output that the detector
classifies as HTML. -/
theorem markdownToHtml_props (s : List Char) :
    markdownToHtml s ≠ [] ∧ htmlPatternTest (markdownToHtml s) = true := by
  unfold markdownToHtml
  have hg : GoodSt (flushList ((splitOnNl (replaceOlBreak s)).foldl processLine
      ⟨[], none, []⟩)) := by
    refine flushList_good (foldl_good _ _ ?_)
    exact ⟨fun b hb => absurd hb (List.not_mem_nil b), fun hi => absurd rfl hi⟩
  have hnemp : NEmp ((splitOnNl (replaceOlBreak s)).foldl processLine
      ⟨[], none, []⟩) := by
    cases hsp : splitOnNl (replaceOlBreak s) with
    | nil => exact absurd hsp (splitOnNl_ne_nil _)
    | cons l ls =>
      rw [List.foldl_cons]
      exact foldl_nemp ls _ (processLine_nemp l (Or.inl rfl))
  have hone : (flushList ((splitOnNl (replaceOlBreak s)).foldl processLine
      ⟨[], none, []⟩)).out ≠ [] := flushList_out_ne hnemp
  cases hout : (flushList ((splitOnNl (replaceOlBreak s)).foldl processLine
      ⟨[], none, []⟩)).out with
  | nil => exact absurd hout hone
  | cons b rest =>
    have hb : matchHtmlAt b = true :=
      hg.1 b (by rw [hout]; exact List.mem_cons_self b rest)
    constructor
    · rw [show (b :: rest).flatten = b ++ rest.flatten from rfl]
      have hbne : b ≠ [] := matchHtmlAt_ne_nil hb
      intro hcon
      rw [List.append_eq_nil] at hcon
      exact hbne hcon.1
    · rw [show (b :: rest).flatten = b ++ rest.flatten from rfl]
      have hx := htmlPatternTest_append_of_matchAt
        (matchHtmlAt_append (r := rest.flatten) hb) ([] : List Char)
      rw [List.nil_append] at hx
      exact hx

end MF

namespace MF

/-! ### The claims -/

/-- C1: every input containing, anywhere and case-insensitively, an opening
or closing delimiter of one of the fixed structural tag names immediately
followed by whitespace, a self-closing slash, or `>`, is returned unchanged
by `renderMessageContent` — the Markdown converter is skipped entirely. -/
theorem c1_html_passthrough (s : List Char) (h : ContainsHtmlBoundary s) :
    renderMessageContent (some s) = s := by
  have htest := htmlPatternTest_of_boundary h
  have hne : s ≠ [] := by
    intro he; subst he; simp [htmlPatternTest] at htest
  simp only [renderMessageContent]
  rw [if_neg (by simp only [List.isEmpty_iff]; exact hne), if_pos htest]

theorem c1_html_passthrough_witness :
    renderMessageContent (some "see <DIV class=x> here".data) =
      "see <DIV class=x> here".data :=
  c1_html_passthrough _ ⟨"see ".data, [], "DIV".data, ' ', "class=x> here".data,
    Or.inl rfl, ⟨"div".data, by decide, by decide⟩, by decide, by decide⟩

/-- C2: `render("Summary. 2. Second. 3. Third.")` emits exactly one
ordered-list block: the pre-pass inserts line breaks before the inline `2.`
and `3.` markers, the line-start rule fires, and the output contains a
single `<ol>` with the items in input order — no fragmented paragraphs and
no second list. -/
theorem c2_inline_ol_single_list :
    renderMessageContent (some "Summary. 2. Second. 3. Third.".data) =
      "<p>Summary.</p><ol><li>Second.</li><li>Third.</li></ol>".data ∧
    replaceOlBreak "Summary. 2. Second. 3. Third.".data =
      "Summary.\n2. Second.\n3. Third.".data ∧
    countOcc "<ol>".data
      (renderMessageContent (some "Summary. 2. Second. 3. Third.".data)) = 1 ∧
    countOcc "<ul>".data
      (renderMessageContent (some "Summary. 2. Second. 3. Third.".data)) = 0 := by
  decide

/-- C3 as frozen is false: a blank line is a non-list line, yet while the
accumulator is non-empty it is swallowed without any flush. -/
theorem c3_claim_counterexample : ¬ ClaimC3 := by
  intro h
  obtain ⟨rest, hr⟩ :=
    h ⟨[], some LKind.ol, ["<li>a</li>".data]⟩ [] (by decide) (by decide) (by decide)
  rw [show (processLine ⟨[], some LKind.ol, ["<li>a</li>".data]⟩ []).out = []
    from by decide] at hr
  exact List.noConfusion hr

/-- C3 amended: every non-blank non-list line occurring while the
accumulator is non-empty causes a flush before the line is processed — the
closed list block is emitted, followed by exactly one block for the line,
and the accumulator is cleared. -/
theorem c3_flush_nonblank_nonlist :
    ∀ (st : MDState) (line : List Char), st.items ≠ [] →
      execUL line = none → execOL line = none → jsTrim line ≠ [] →
      ∃ b, processLine st line =
        ⟨st.out ++ [listBlock st.listType st.items, b], none, []⟩ :=
  fun _ _ hit hUL hOL hb => processLine_flush_nonblank hit hUL hOL hb

theorem c3_flush_nonblank_witness :
    ∃ b, processLine ⟨[], some LKind.ol, ["<li>a</li>".data]⟩ "x".data =
      ⟨[listBlock (some LKind.ol) ["<li>a</li>".data], b], none, []⟩ :=
  c3_flush_nonblank_nonlist _ _ (by decide) (by decide) (by decide) (by decide)

/-- C4: a blank or all-whitespace line while the list accumulator is
non-empty produces no output block and does not close the open list, so
`render "1. a\n\n2. b"` yields one ordered list with exactly the items `a`
then `b`; a blank line while the accumulator is empty emits a `<br>`
block. -/
theorem c4_blank_line_handling :
    (∀ (st : MDState) (line : List Char), jsTrim line = [] → st.items ≠ [] →
      st.listType ≠ none → processLine st line = st) ∧
    (∀ (st : MDState) (line : List Char), jsTrim line = [] → st.items = [] →
      st.listType = none →
      processLine st line = ⟨st.out ++ [brBlock], st.listType, st.items⟩) ∧
    renderMessageContent (some "1. a\n\n2. b".data) =
      "<ol><li>a</li><li>b</li></ol>".data := by
  refine ⟨fun st line hb _ hty => processLine_blank_open hb hty,
    fun st line hb hit hty => processLine_blank_closed hb hty hit, by decide⟩

theorem c4_blank_line_witness :
    processLine ⟨[], some LKind.ol, ["<li>a</li>".data]⟩ " ".data =
        ⟨[], some LKind.ol, ["<li>a</li>".data]⟩ ∧
    processLine ⟨[], none, []⟩ [] = ⟨[brBlock], none, []⟩ :=
  ⟨c4_blank_line_handling.1 _ _ (by decide) (by decide) (by decide),
   c4_blank_line_handling.2.1 _ _ (by decide) (by decide) (by decide)⟩

/-- C5: the pre-pass fires only on a period followed by whitespace and a
numeral with a `.` or `)` delimiter: on input with no pre-existing line
breaks every break in its output sits immediately after a period (so no
break is inserted after other punctuation), and any period-free prefix —
in particular a list marker opening the paragraph — is passed through
untouched, so no break is ever inserted before it. -/
theorem c5_prepass_period_only :
    (∀ s : List Char, (∀ c ∈ s, c ≠ '\n') → ∀ p, bapFrom p (replaceOlBreak s)) ∧
    (∀ pfx r : List Char, '.' ∉ pfx →
      replaceOlBreak (pfx ++ r) = pfx ++ replaceOlBreak r) := by
  constructor
  · intro s h p
    exact olBreakGo_bap s.length s h p
  · intro pfx r hp
    unfold replaceOlBreak
    refine olBreakGo_no_period ?_ r
    intro c hc h46
    have hcd : c = '.' := charEq_of_toNat (h46.trans (by decide))
    exact hp (hcd ▸ hc)

theorem c5_prepass_witness :
    bapFrom 'x' (replaceOlBreak "It costs $5! 2 are here. 3. go".data) ∧
    replaceOlBreak ("Steps:".data ++ " 2. go on".data) =
      "Steps:".data ++ replaceOlBreak " 2. go on".data :=
  ⟨c5_prepass_period_only.1 _ (by decide) 'x',
   c5_prepass_period_only.2 _ _ (by decide)⟩

/-- C6: an ordered-list line whose content carries additional internal
digit-plus-delimiter-plus-whitespace markers is split at each such marker
into several `<li>` items: the loop keeps the even-indexed pieces, trims
each, drops the ones whose trimmed text is empty, and inline-formats the
survivors, so content `First 2. Second 3. Third` yields exactly the items
`First`, `Second`, `Third` in that order. -/
theorem c6_inline_marker_split :
    (∀ content : List Char, olItems content =
      if 1 < (splitCap content).length then
        (((evens (splitCap content)).map jsTrim).filter
          fun t => !t.isEmpty).map fun t => wrapLi (inlineFormat t)
      else [wrapLi (inlineFormat content)]) ∧
    olItems "First 2. Second 3. Third".data =
      ["<li>First</li>".data, "<li>Second</li>".data, "<li>Third</li>".data] ∧
    renderMessageContent (some "1. First 2. Second 3. Third".data) =
      "<ol><li>First</li><li>Second</li><li>Third</li></ol>".data := by
  refine ⟨fun content => ?_, by decide, by decide⟩
  unfold olItems
  dsimp only
  split
  · exact collectEvens_eq _
  · rfl

/-- C7: `render "- a\n1. b"` closes the unordered list before opening the
ordered one — exactly two list blocks, a `<ul>` with `a` then an `<ol>`
with `b` — and in general a list line of the other kind always flushes the
non-empty accumulator first. -/
theorem c7_list_kind_switch :
    renderMessageContent (some "- a\n1. b".data) =
      "<ul><li>a</li></ul><ol><li>b</li></ol>".data ∧
    (∀ (st : MDState) (line content : List Char), execOL line = some content →
      st.listType = some LKind.ul → st.items ≠ [] →
      processLine st line = ⟨st.out ++ [listBlock (some LKind.ul) st.items],
        some LKind.ol, olItems content⟩) ∧
    (∀ (st : MDState) (line content : List Char), execUL line = some content →
      st.listType = some LKind.ol → st.items ≠ [] →
      processLine st line = ⟨st.out ++ [listBlock (some LKind.ol) st.items],
        some LKind.ul, [wrapLi (inlineFormat content)]⟩) :=
  ⟨by decide, fun _ _ _ hOL hty hit => processLine_switch_to_ol hOL hty hit,
   fun _ _ _ hUL hty hit => processLine_switch_to_ul hUL hty hit⟩

theorem c7_list_kind_witness :
    processLine ⟨[], some LKind.ul, ["<li>a</li>".data]⟩ "1. b".data =
      ⟨[listBlock (some LKind.ul) ["<li>a</li>".data]], some LKind.ol,
        olItems "b".data⟩ :=
  c7_list_kind_switch.2.1 _ _ _ (by decide) rfl (by decide)

/-- C8: bold is substituted before italic, then inline code, each applied
globally: `render "**bold**"` is a single paragraph wrapping a strong span
(no nested emphasis), and a lone unmatched asterisk is left as a literal
character. -/
theorem c8_bold_before_italic :
    renderMessageContent (some "**bold**".data) =
      "<p><strong>bold</strong></p>".data ∧
    countOcc "<em>".data (renderMessageContent (some "**bold**".data)) = 0 ∧
    (∀ s : List Char, s.count '*' = 1 → (∀ c ∈ s, c ≠ '\x60') →
      inlineFormat s = s) ∧
    renderMessageContent (some "see a*b now".data) = "<p>see a*b now</p>".data := by
  refine ⟨by decide, by decide,
    fun s h1 h2 => inlineFormat_single_ast h1 h2, by decide⟩

theorem c8_bold_witness : inlineFormat "see a*b now".data = "see a*b now".data :=
  c8_bold_before_italic.2.2.1 _ (by decide) (by decide)

/-- C9: absent (`none`) or empty input renders to the empty string. -/
theorem c9_empty_input :
    renderMessageContent none = [] ∧ renderMessageContent (some []) = [] := by
  decide

/-- C10: `renderMessageContent` is idempotent on every input, because the
converter's output is always nonempty and always contains a tag boundary
from the detector's allowlist, so a second call takes the HTML pass-through
branch. -/
theorem c10_render_idempotent :
    (∀ t : Option (List Char),
      renderMessageContent (some (renderMessageContent t)) =
        renderMessageContent t) ∧
    (∀ s : List Char, markdownToHtml s ≠ [] ∧
      htmlPatternTest (markdownToHtml s) = true) := by
  refine ⟨?_, markdownToHtml_props⟩
  intro t
  cases t with
  | none => rfl
  | some s =>
    by_cases hs : (s.isEmpty : Prop)
    · simp only [renderMessageContent, if_pos hs]
      rfl
    · by_cases ht : (htmlPatternTest s : Prop)
      · simp only [renderMessageContent, if_neg hs, if_pos ht]
      · simp only [renderMessageContent, if_neg hs, if_neg ht]
        obtain ⟨hne, htest⟩ := markdownToHtml_props s
        rw [if_neg (by simpa [List.isEmpty_iff] using hne), if_pos htest]

end MF
